import Mathlib

/-!
Verification development for the byte-range attribution helpers of the
repository (`src/lib/helpers.ts`).

Modelling conventions:
* JavaScript strings are modelled as `List Char` (one entry per UTF-16 code
  unit; all inputs appearing in the claims are ASCII, where code units and
  code points coincide).  Top-level functions that the claims mention by name
  are additionally wrapped over Lean `String` where convenient.
* JavaScript numbers are modelled exactly: array indices and offsets as
  `Int`/`Nat`, and the floating-point arithmetic inside `formatBytes` by the
  exact rational it idealises (see `toFixedTrimmed`).
* Fallible code (a JS `TypeError`) is modelled with `Except String`.
* The unbounded `while` loop of `getOccurrencesCount` is modelled with
  explicit fuel; `none` means the loop ran past the fuel bound.
-/

namespace Helpers

/-- Modelled from the spec: the `MappingRange` record of `src/lib/types.ts`
(the file itself is not part of the excerpt): a byte range
`{ start, end, source }` with inclusive `end`, whose `source` is either a
source-file identifier or the `null` "unmapped" sentinel. -/
structure MappingRange where
  start : Int
  «end» : Int
  source : Option String
  deriving DecidableEq, Repr

/-- The `TypeError` raised by `let { start, end, source } = ranges[0]` when
`ranges` is empty: destructuring `undefined` throws in JavaScript. -/
def destructureFailure : String := "TypeError: Cannot destructure property of undefined"

/-- The `for` loop of `mergeRanges` (src/lib/helpers.ts:134-145) together with
the final `mergedRanges.push` (line 147).  `acc` is the running
`{start, end, source}` accumulator, `prev` is `ranges[i - 1]` (the previous
*input* range, which the source compares against), and the remaining list
holds `ranges[i], ranges[i+1], ...`. -/
def mergeGo (acc prev : MappingRange) : List MappingRange → List MappingRange
  | [] => [acc]
  | r :: rest =>
    if r.source = prev.source ∧ r.start - prev.«end» = 1 then
      mergeGo { acc with «end» := r.«end» } r rest
    else
      acc :: mergeGo r r rest

/-- `mergeRanges` (src/lib/helpers.ts:124-150).  Only `rangesCount === 1` is
guarded; on the empty list the destructuring of `ranges[0]` throws. -/
def mergeRanges (ranges : List MappingRange) : Except String (List MappingRange) :=
  if ranges.length = 1 then Except.ok ranges
  else
    match ranges with
    | [] => Except.error destructureFailure
    | r :: rest => Except.ok (mergeGo r r rest)

/-- Consecutive ranges are byte-contiguous: each range starts one byte past
the previous range's inclusive end. -/
def Chained (l : List MappingRange) : Prop :=
  List.Chain' (fun a b => b.start = a.«end» + 1) l

/-- Every range is a well-formed inclusive byte interval. -/
def WellFormedRanges (l : List MappingRange) : Prop :=
  ∀ r ∈ l, r.start ≤ r.«end»

/-- Byte offset `k` is covered by some range of the list. -/
def covers (l : List MappingRange) (k : Int) : Prop :=
  ∃ r ∈ l, r.start ≤ k ∧ k ≤ r.«end»

/-- Two consecutive output ranges of the merger are not mergeable: they do not
share a source while being byte-adjacent. -/
def NotMergeable (a b : MappingRange) : Prop :=
  ¬ (b.source = a.source ∧ b.start - a.«end» = 1)

instance (l : List MappingRange) : Decidable (WellFormedRanges l) :=
  inferInstanceAs (Decidable (∀ r ∈ l, r.start ≤ r.«end»))

/-- `String.prototype.indexOf(sub, pos)` over code-unit lists, per the ES
spec: clamp `pos` into `[0, s.length]`, then return the least index at or
after it where `sub` occurs (the empty needle occurs at every index), else
`-1`. -/
def jsIndexOfFrom (s sub : List Char) (pos : Int) : Int :=
  let k : Nat := (min (max pos 0) (s.length : Int)).toNat
  match (List.range (s.length + 1 - k)).find? (fun d => sub.isPrefixOf (s.drop (k + d))) with
  | some d => ((k + d : Nat) : Int)
  | none => -1

/-- The `while (position !== -1)` loop of `getOccurrencesCount`
(src/lib/helpers.ts:87-90), instrumented with fuel: `none` means the loop ran
past the fuel bound. -/
def occLoop (sub s : List Char) : Nat → Nat → Int → Option Nat
  | 0, _, _ => none
  | fuel + 1, count, position =>
    if position = -1 then some count
    else occLoop sub s fuel (count + 1) (jsIndexOfFrom s sub (position + (sub.length : Int)))

/-- `getOccurrencesCount` (src/lib/helpers.ts:82-93) run with a given fuel
bound on the loop: `count` starts at 0 and `position` at
`string.indexOf(subString)`. -/
def getOccurrencesCountFuel (sub s : List Char) (fuel : Nat) : Option Nat :=
  occLoop sub s fuel 0 (jsIndexOfFrom s sub 0)

/-- `getOccurrencesCount` with the canonical fuel `s.length + 2`, which is
enough for every terminating run (each iteration advances `position` by
`sub.length ≥ 1` when the needle is non-empty); `none` therefore means the
JS loop does not terminate. -/
def getOccurrencesCount (sub s : List Char) : Option Nat :=
  getOccurrencesCountFuel sub s (s.length + 2)

/-- `BYTE_SIZES` (src/lib/helpers.ts:11). -/
def BYTE_SIZES : List String := ["B", "KB", "MB", "GB", "TB", "PB", "EB", "ZB", "YB"]

/-- `SIZE_BASE` (src/lib/helpers.ts:13). -/
def SIZE_BASE : Nat := 1024

/-- Models `parseFloat((num / den).toFixed(decimals))` interpolated into a
template string: the JS double `num / den` is idealised as the exact rational,
`toFixed` rounds to the nearest `decimals`-digit decimal (ties away from zero,
per the ES spec: `n = floor(x * 10 ^ d + 1 / 2)` for positive `x`), and the
`parseFloat` round-trip through a JS number strips the trailing fractional
zeros (and a bare trailing dot). -/
def toFixedTrimmed (num den decimals : Nat) : String :=
  let scaled := (2 * num * 10 ^ decimals + den) / (2 * den)
  let ip := scaled / 10 ^ decimals
  let fp := scaled % 10 ^ decimals
  if fp = 0 then Nat.repr ip
  else
    Nat.repr ip ++ "." ++
      String.mk (((List.replicate (decimals - (Nat.repr fp).length) '0' ++
        (Nat.repr fp).data).reverse.dropWhile (fun c => c = '0')).reverse)

/-- `formatBytes` (src/lib/helpers.ts:19-27) with the exponent computation
kept abstract: the source computes
`exponent = Math.floor(Math.log(bytes) / Math.log(SIZE_BASE))` in doubles,
and this embedding takes that exponent as the function `logFn`, so statements
quantifying over `logFn` hold for whatever exponent the floating-point
expression produces.  `BYTE_SIZES[exponent]` past the end of the table is JS
`undefined`, which the template string renders as `"undefined"`. -/
def formatBytesWith (logFn : Nat → Nat) (bytes : Nat) (decimals : Nat := 2) : String :=
  if bytes = 0 then "0 " ++ ((BYTE_SIZES.get? 0).getD "undefined")
  else
    toFixedTrimmed bytes (SIZE_BASE ^ logFn bytes) decimals ++ " " ++
      ((BYTE_SIZES.get? (logFn bytes)).getD "undefined")

/-- `formatBytes` with the float expression
`Math.floor(Math.log(bytes) / Math.log(1024))` instantiated by the exact
integer logarithm `Nat.log 1024 bytes`.  The two agree at every input a
theorem below evaluates this definition at (0, 1024, 1536, 1234567 and
`1024 ^ 9`: the double log-quotients there are 1.0, ≈1.0585, ≈2.9198 and
exactly 9.0, each farther from the floor boundary than any rounding error),
but not necessarily just below a power of 1024, where `Math.log` rounding can
carry the quotient up to the next integer — statements about the suffix for
general `n` therefore use `formatBytesWith` with the exponent function
abstract. -/
def formatBytes (bytes : Nat) (decimals : Nat := 2) : String :=
  formatBytesWith (Nat.log SIZE_BASE) bytes decimals

/-- JS `<` on strings, as used by the default `Array.prototype.sort()`
comparator: lexicographic comparison of code units, a proper prefix being
smaller. -/
def lexLt : List Char → List Char → Bool
  | _, [] => false
  | [], _ :: _ => true
  | a :: as, b :: bs => if a < b then true else if b < a then false else lexLt as bs

/-- Insertion step for `jsSortStrings`. -/
def insertSorted (x : String) : List String → List String
  | [] => [x]
  | y :: ys => if lexLt y.data x.data then y :: insertSorted x ys else x :: y :: ys

/-- `Array.prototype.sort()` with the default comparator (elements compared as
strings by code units).  Any correct sort yields the same result on strings;
insertion sort is used here. -/
def jsSortStrings : List String → List String
  | [] => []
  | x :: xs => insertSorted x (jsSortStrings xs)

/-- `path.split(PATH_SEPARATOR_REGEX)` where `PATH_SEPARATOR_REGEX = /(\/)/`
keeps the captured separator: the result alternates (possibly empty) segments
with `"/"` tokens, beginning and ending with a segment. -/
def splitKeepSep : List Char → List (List Char)
  | [] => [[]]
  | c :: rest =>
    if c = '/' then [] :: ['/'] :: splitKeepSep rest
    else
      match splitKeepSep rest with
      | s :: t => (c :: s) :: t
      | [] => [[c]]

/-- The `while (i < L && a1[i] === a2[i]) i++` loop of `getCommonPathPrefix`:
the length of the common leading token run (when either array is exhausted the
JS comparison against `undefined` stops the loop). -/
def commonRun : List (List Char) → List (List Char) → Nat
  | x :: xs, y :: ys => if x = y then commonRun xs ys + 1 else 0
  | _, _ => 0

/-- Lines 44-52 of `getCommonPathPrefix`: split `A[0]` and `A[A.length - 1]`
on the separator regex and join the common leading token run
(`a1.slice(0, i).join('')`). -/
def commonTokensOfSorted (A : List String) : List Char :=
  let a1 := splitKeepSep (A.headD "").data
  let a2 := splitKeepSep (A.getLastD "").data
  (a1.take (commonRun a1 a2)).flatten

/-- `getCommonPathPrefix` (src/lib/helpers.ts:40-53): below 2 paths return
`""`; otherwise sort a copy (`paths.concat().sort()`) and compare the token
splits of the first and last sorted entries. -/
def getCommonPathPrefix (paths : List String) : String :=
  if paths.length < 2 then ""
  else String.mk (commonTokensOfSorted (jsSortStrings (paths ++ [])))

/-- A heap of string arrays, giving array variables identities so that the
frame condition of `getCommonPathPrefix` (no mutation of its argument) is
expressible: `concat()` allocates a fresh array and in-place `sort()` writes
through the identity it is called on. -/
structure ArrStore where
  arrs : List (List String)

/-- Read the array with identity `i`. -/
def readArr (st : ArrStore) (i : Nat) : List String := (st.arrs.get? i).getD []

/-- Overwrite the array with identity `i` (JS in-place mutation). -/
def writeArr (st : ArrStore) (i : Nat) (v : List String) : ArrStore := ⟨st.arrs.set i v⟩

/-- Heap-aware embedding of `getCommonPathPrefix`: `paths.concat()` allocates
a fresh copy at a new identity, `.sort()` mutates that fresh array in place,
and the `paths` array itself is never written. -/
def getCommonPathPrefixSt (st : ArrStore) (pathsId : Nat) : ArrStore × String :=
  let paths := readArr st pathsId
  if paths.length < 2 then (st, "")
  else
    let st1 : ArrStore := ⟨st.arrs ++ [paths ++ []]⟩
    let aId := st.arrs.length
    let st2 := writeArr st1 aId (jsSortStrings (readArr st1 aId))
    (st2, String.mk (commonTokensOfSorted (readArr st2 aId)))

/-- `content.split(CR_LF)`: JS `String.prototype.split` with the two-character
separator `"\r\n"` (greedy left-to-right scan; `""` yields `[""]`, and a
trailing separator contributes a trailing empty segment). -/
def splitCRLF : List Char → List (List Char)
  | [] => [[]]
  | [c] => [[c]]
  | c :: c' :: rest =>
    if c = '\r' ∧ c' = '\n' then [] :: splitCRLF rest
    else
      match splitCRLF (c' :: rest) with
      | s :: t => (c :: s) :: t
      | [] => [[c]]

/-- `e.split(LF)`: JS split with the one-character separator `"\n"`. -/
def splitLF : List Char → List (List Char)
  | [] => [[]]
  | c :: rest =>
    if c = '\n' then [] :: splitLF rest
    else
      match splitLF rest with
      | s :: t => (c :: s) :: t
      | [] => [[c]]

/-- One `{ line, eol }` entry of `splitLinesByEOL` (the `SplitLine` type of
src/lib/helpers.ts:64). -/
structure SplitLine where
  line : List Char
  eol : List Char
  deriving DecidableEq, Repr

/-- `splitLinesByEOL` (src/lib/helpers.ts:66-77): split on `"\r\n"`, split
each chunk on `"\n"`, and tag each line with
`j < orig.length - 1 || i === length - 1 ? LF : CR_LF`. -/
def splitLinesByEOL (content : List Char) : List SplitLine :=
  let chunks := splitCRLF content
  (chunks.enum.map (fun ie =>
    let orig := splitLF ie.2
    orig.enum.map (fun jl =>
      { line := jl.2
        eol := if jl.1 < orig.length - 1 ∨ ie.1 = chunks.length - 1
               then ['\n'] else ['\r', '\n'] }))).flatten

/-- Join `{line, eol}` entries back into text, the final entry's `eol`
omitted — the round-trip reading of §8 of the spec (`text` ends where the
last line ends). -/
def joinSplitLines : List SplitLine → List Char
  | [] => []
  | [x] => x.line
  | x :: xs => x.line ++ x.eol ++ joinSplitLines xs

/-- Segments interleaved with `'\n'` (inverse of `splitLF`). -/
def joinLF : List (List Char) → List Char
  | [] => []
  | [x] => x
  | x :: xs => x ++ '\n' :: joinLF xs

/-- Segments interleaved with `"\r\n"` (inverse of `splitCRLF`). -/
def joinCRLF : List (List Char) → List Char
  | [] => []
  | [x] => x
  | x :: xs => x ++ '\r' :: '\n' :: joinCRLF xs

/-- Map a function over a list that also receives whether the element is the
last one — the shape the index comparisons of `splitLinesByEOL` reduce to. -/
def mapWithLast {α β : Type} (f : α → Bool → β) : List α → List β
  | [] => []
  | [x] => [f x true]
  | x :: xs => f x false :: mapWithLast f xs

/-- The entries `splitLinesByEOL` produces for one `"\r\n"`-chunk, with the
index comparisons resolved: every line gets `"\n"` except the last line of a
non-last chunk, which gets `"\r\n"`. -/
def entriesOfChunk (isLastChunk : Bool) (e : List Char) : List SplitLine :=
  mapWithLast (fun line isLastLine =>
    { line := line
      eol := if isLastLine && !isLastChunk then ['\r', '\n'] else ['\n'] }) (splitLF e)

/-- Modelled from the spec: `pre` is a separator-aligned prefix of `p` when it
is a string prefix whose end falls on a path-component boundary of `p` — the
spec's contract "prefix boundaries aligned to path-separator characters (so
`\"/a/bc\"` and `\"/a/bd\"` share prefix `\"/a/\"`, not `\"/a/b\"`)": either
`pre` is all of `p`, or `pre` ends with the separator, or the next character
of `p` after `pre` is the separator. -/
def alignedIn (pre p : List Char) : Bool :=
  pre.isPrefixOf p &&
    (pre.length == p.length || pre.getLast? == some '/' || p.get? pre.length == some '/')

/-- Modelled from the spec: `pre` is a separator-aligned common prefix of all
the supplied paths. -/
def alignedSharedIn (pre : List Char) (paths : List String) : Bool :=
  paths.all fun p => alignedIn pre p.data

theorem mergeGo_ne_nil (rest : List MappingRange) (acc prev : MappingRange) :
    mergeGo acc prev rest ≠ [] := by
  induction rest generalizing acc prev with
  | nil => simp [mergeGo]
  | cons r rest ih =>
    simp only [mergeGo]
    split
    · exact ih _ _
    · simp

theorem mergeGo_head (rest : List MappingRange) (acc prev : MappingRange) :
    ∃ h t, mergeGo acc prev rest = h :: t ∧ h.start = acc.start ∧ h.source = acc.source := by
  induction rest generalizing acc prev with
  | nil => exact ⟨acc, [], rfl, rfl, rfl⟩
  | cons r rest ih =>
    simp only [mergeGo]
    split
    · obtain ⟨h, t, heq, hs, hsrc⟩ := ih { acc with «end» := r.«end» } r
      exact ⟨h, t, heq, hs, hsrc⟩
    · exact ⟨acc, mergeGo r r rest, rfl, rfl, rfl⟩

theorem getLast?_cons_of_ne_nil {α : Type} (a : α) {l : List α} (h : l ≠ []) :
    (a :: l).getLast? = l.getLast? := by
  cases l with
  | nil => exact absurd rfl h
  | cons b t => exact List.getLast?_cons_cons

theorem mergeGo_getLast (rest : List MappingRange) (acc prev : MappingRange)
    (hend : acc.«end» = prev.«end») :
    (mergeGo acc prev rest).getLast?.map (fun r => r.«end») =
    ((prev :: rest).getLast?).map (fun r => r.«end») := by
  induction rest generalizing acc prev with
  | nil => simp [mergeGo, hend]
  | cons r rest ih =>
    simp only [mergeGo]
    split
    · rw [ih { acc with «end» := r.«end» } r rfl, List.getLast?_cons_cons]
    · rw [getLast?_cons_of_ne_nil acc (mergeGo_ne_nil rest r r), ih r r rfl,
        List.getLast?_cons_cons]

theorem mergeGo_chained_wf (rest : List MappingRange) (acc prev : MappingRange)
    (hend : acc.«end» = prev.«end») (hwfacc : acc.start ≤ acc.«end»)
    (hch : Chained (prev :: rest)) (hwf : WellFormedRanges (prev :: rest)) :
    Chained (mergeGo acc prev rest) ∧ WellFormedRanges (mergeGo acc prev rest) := by
  induction rest generalizing acc prev with
  | nil =>
    refine ⟨List.chain'_singleton acc, ?_⟩
    intro x hx
    simp only [mergeGo, List.mem_singleton] at hx
    subst hx; exact hwfacc
  | cons r rest ih =>
    have hcons : r.start = prev.«end» + 1 := (List.chain'_cons.mp hch).1
    have hchtail : Chained (r :: rest) := (List.chain'_cons.mp hch).2
    have hwfr : r.start ≤ r.«end» := hwf r (by simp)
    have hwftail : WellFormedRanges (r :: rest) := by
      intro x hx; exact hwf x (List.mem_cons_of_mem prev hx)
    simp only [mergeGo]
    split
    · exact ih { acc with «end» := r.«end» } r rfl (by simp; omega) hchtail hwftail
    · obtain ⟨hchm, hwfm⟩ := ih r r rfl hwfr hchtail hwftail
      obtain ⟨h, t, heq, hs, _⟩ := mergeGo_head rest r r
      constructor
      · rw [heq] at hchm ⊢
        exact List.chain'_cons.mpr ⟨by rw [hs, hcons, hend], hchm⟩
      · intro x hx
        rcases List.mem_cons.mp hx with rfl | hx
        · exact hwfacc
        · exact hwfm x hx

theorem chained_wf_lt_of_mem : ∀ (t : List MappingRange) (x b : MappingRange),
    Chained (x :: t) → WellFormedRanges (x :: t) → b ∈ t → x.«end» < b.start := by
  intro t
  induction t with
  | nil => intro x b _ _ hb; cases hb
  | cons y t ih =>
    intro x b hch hwf hb
    have hxy : y.start = x.«end» + 1 := (List.chain'_cons.mp hch).1
    rcases List.mem_cons.mp hb with rfl | hb
    · omega
    · have hwfy : y.start ≤ y.«end» := hwf y (by simp)
      have := ih y b (List.chain'_cons.mp hch).2
        (fun r hr => hwf r (List.mem_cons_of_mem x hr)) hb
      omega

theorem chained_wf_pairwise (l : List MappingRange)
    (hch : Chained l) (hwf : WellFormedRanges l) :
    l.Pairwise (fun a b => a.«end» < b.start) := by
  induction l with
  | nil => exact List.Pairwise.nil
  | cons x t ih =>
    refine List.pairwise_cons.mpr ⟨fun b hb => chained_wf_lt_of_mem t x b hch hwf hb, ?_⟩
    exact ih hch.tail (fun r hr => hwf r (List.mem_cons_of_mem x hr))

theorem mem_of_getLast?_eq_some {α : Type} : ∀ {l : List α} {a : α},
    l.getLast? = some a → a ∈ l := by
  intro l
  induction l with
  | nil => intro a h; cases h
  | cons x t ih =>
    intro a h
    cases t with
    | nil =>
      have : x = a := by simpa using h
      simp [this]
    | cons y t =>
      rw [List.getLast?_cons_cons] at h
      exact List.mem_cons_of_mem x (ih h)

theorem chained_wf_covers_iff : ∀ (t : List MappingRange) (x z : MappingRange),
    Chained (x :: t) → WellFormedRanges (x :: t) → (x :: t).getLast? = some z →
    ∀ k : Int, covers (x :: t) k ↔ x.start ≤ k ∧ k ≤ z.«end» := by
  intro t
  induction t with
  | nil =>
    intro x z _ _ hz k
    have hzx : x = z := by simpa using hz
    subst hzx
    simp only [covers, List.mem_singleton]
    constructor
    · rintro ⟨r, rfl, hk⟩; exact hk
    · intro hk; exact ⟨x, rfl, hk⟩
  | cons y t ih =>
    intro x z hch hwf hz k
    have hys : y.start = x.«end» + 1 := (List.chain'_cons.mp hch).1
    have hchtail : Chained (y :: t) := (List.chain'_cons.mp hch).2
    have hwftail : WellFormedRanges (y :: t) := by
      intro r hr; exact hwf r (List.mem_cons_of_mem x hr)
    have hz' : (y :: t).getLast? = some z := by
      rw [← List.getLast?_cons_cons (a := x)]; exact hz
    have hiy := ih y z hchtail hwftail hz' k
    have hxle : x.start ≤ x.«end» := hwf x (by simp)
    have hyz : y.start ≤ z.«end» := by
      rcases List.mem_cons.mp (mem_of_getLast?_eq_some hz') with hzy | hzm
      · rw [hzy]; exact hwftail y (by simp)
      · have := chained_wf_lt_of_mem t y z hchtail hwftail hzm
        have hwz : z.start ≤ z.«end» := hwftail z (List.mem_cons_of_mem y hzm)
        have hwy : y.start ≤ y.«end» := hwftail y (by simp)
        omega
    constructor
    · rintro ⟨r, hr, hk1, hk2⟩
      rcases List.mem_cons.mp hr with rfl | hr
      · exact ⟨hk1, by omega⟩
      · have : y.start ≤ k ∧ k ≤ z.«end» := hiy.mp ⟨r, hr, hk1, hk2⟩
        constructor
        · omega
        · exact this.2
    · rintro ⟨hk1, hk2⟩
      by_cases hcase : k ≤ x.«end»
      · exact ⟨x, by simp, hk1, hcase⟩
      · have : y.start ≤ k := by omega
        obtain ⟨r, hr, hrk⟩ := hiy.mpr ⟨this, hk2⟩
        exact ⟨r, List.mem_cons_of_mem x hr, hrk⟩

theorem mergeGo_chain'_notMergeable (rest : List MappingRange) (acc prev : MappingRange)
    (hend : acc.«end» = prev.«end») (hsrc : acc.source = prev.source) :
    List.Chain' NotMergeable (mergeGo acc prev rest) := by
  induction rest generalizing acc prev with
  | nil => exact List.chain'_singleton acc
  | cons r rest ih =>
    simp only [mergeGo]
    by_cases hc : r.source = prev.source ∧ r.start - prev.«end» = 1
    · rw [if_pos hc]
      exact ih { acc with «end» := r.«end» } r rfl (hsrc.trans hc.1.symm)
    · rw [if_neg hc]
      obtain ⟨h, t, heq, hs, hsrc'⟩ := mergeGo_head rest r r
      rw [heq]
      refine List.chain'_cons.mpr ⟨?_, heq ▸ ih r r rfl rfl⟩
      intro hcontra
      refine hc ⟨(hsrc'.symm.trans hcontra.1).trans hsrc, ?_⟩
      have h1 : h.start = r.start := hs
      have := hcontra.2
      omega

theorem mergeGo_fixed : ∀ (os : List MappingRange) (o : MappingRange),
    List.Chain' NotMergeable (o :: os) → mergeGo o o os = o :: os := by
  intro os
  induction os with
  | nil => intro o _; rfl
  | cons r os ih =>
    intro o hch
    have hnm : NotMergeable o r := (List.chain'_cons.mp hch).1
    simp only [mergeGo]
    rw [if_neg hnm, ih r (List.chain'_cons.mp hch).2]

/-- C1: for every non-empty contiguous ("chained") list of well-formed ranges,
`mergeRanges` succeeds and returns a non-empty range list that is again
contiguous and well-formed, pairwise non-overlapping, starts at the first
input range's start, ends at the last input range's end, and covers exactly
the same byte offsets as the input (no gaps, no overlaps). -/
theorem mergeRanges_contiguous_cover (l : List MappingRange)
    (hne : l ≠ []) (hch : Chained l) (hwf : WellFormedRanges l) :
    ∃ m, mergeRanges l = Except.ok m ∧ m ≠ [] ∧ Chained m ∧ WellFormedRanges m ∧
      m.Pairwise (fun a b => a.«end» < b.start) ∧
      m.head?.map MappingRange.start = l.head?.map MappingRange.start ∧
      m.getLast?.map (fun r => r.«end») = l.getLast?.map (fun r => r.«end») ∧
      (∀ k : Int, covers m k ↔ covers l k) := by
  by_cases h1 : l.length = 1
  · exact ⟨l, by unfold mergeRanges; rw [if_pos h1], hne, hch, hwf,
      chained_wf_pairwise l hch hwf, rfl, rfl, fun k => Iff.rfl⟩
  · cases l with
    | nil => exact absurd rfl hne
    | cons r rest =>
      refine ⟨mergeGo r r rest, by unfold mergeRanges; rw [if_neg h1], mergeGo_ne_nil rest r r,
        ?_, ?_, ?_, ?_, ?_, ?_⟩
      · exact (mergeGo_chained_wf rest r r rfl (hwf r (by simp)) hch hwf).1
      · exact (mergeGo_chained_wf rest r r rfl (hwf r (by simp)) hch hwf).2
      · obtain ⟨hchm, hwfm⟩ := mergeGo_chained_wf rest r r rfl (hwf r (by simp)) hch hwf
        exact chained_wf_pairwise _ hchm hwfm
      · obtain ⟨h, t, heq, hs, -⟩ := mergeGo_head rest r r
        rw [heq]
        simp [hs]
      · exact mergeGo_getLast rest r r rfl
      · intro k
        obtain ⟨hchm, hwfm⟩ := mergeGo_chained_wf rest r r rfl (hwf r (by simp)) hch hwf
        obtain ⟨h, t, heq, hs, -⟩ := mergeGo_head rest r r
        obtain ⟨z, hz⟩ : ∃ z, (r :: rest).getLast? = some z :=
          ⟨(r :: rest).getLast (by simp), List.getLast?_eq_getLast_of_ne_nil (by simp)⟩
        obtain ⟨zm, hzm⟩ : ∃ zm, (h :: t).getLast? = some zm :=
          ⟨(h :: t).getLast (by simp), List.getLast?_eq_getLast_of_ne_nil (by simp)⟩
        have hmap := mergeGo_getLast rest r r rfl
        rw [heq, hzm, hz] at hmap
        have hzend : zm.«end» = z.«end» := by simpa using hmap
        rw [heq] at hchm hwfm ⊢
        rw [chained_wf_covers_iff t h zm hchm hwfm hzm k,
          chained_wf_covers_iff rest r z hch hwf hz k, hs, hzend]

/-- Witness for C1 at the chained list
`[{0, 4, "a"}, {5, 9, "a"}, {10, 12, null}]` (the first two ranges merge). -/
theorem mergeRanges_contiguous_cover_witness :
    ∃ m, mergeRanges [MappingRange.mk 0 4 (some "a"), MappingRange.mk 5 9 (some "a"),
        MappingRange.mk 10 12 none] = Except.ok m ∧ m ≠ [] ∧ Chained m ∧
      WellFormedRanges m ∧ m.Pairwise (fun a b => a.«end» < b.start) ∧
      m.head?.map MappingRange.start =
        ([MappingRange.mk 0 4 (some "a"), MappingRange.mk 5 9 (some "a"),
          MappingRange.mk 10 12 none] : List MappingRange).head?.map MappingRange.start ∧
      m.getLast?.map (fun r => r.«end») =
        ([MappingRange.mk 0 4 (some "a"), MappingRange.mk 5 9 (some "a"),
          MappingRange.mk 10 12 none] : List MappingRange).getLast?.map (fun r => r.«end») ∧
      (∀ k : Int, covers m k ↔
        covers [MappingRange.mk 0 4 (some "a"), MappingRange.mk 5 9 (some "a"),
          MappingRange.mk 10 12 none] k) :=
  mergeRanges_contiguous_cover
    [MappingRange.mk 0 4 (some "a"), MappingRange.mk 5 9 (some "a"), MappingRange.mk 10 12 none]
    (by decide)
    (List.chain'_cons.mpr ⟨by decide, List.chain'_cons.mpr ⟨by decide, List.chain'_singleton _⟩⟩)
    (by decide)

/-- C2 counterexample: on the empty list `mergeRanges` does not return its
input — the `rangesCount === 1` guard does not cover `length = 0`, and the
destructuring `let { start, end, source } = ranges[0]` throws a `TypeError`. -/
theorem mergeRanges_nil_raises :
    mergeRanges ([] : List MappingRange) = Except.error destructureFailure := rfl

/-- C2 (amended): `mergeRanges` returns a range list of length exactly 1
unchanged and raises no error; for the empty list it raises a `TypeError`
(the guard checks `rangesCount === 1` only, and `ranges[0]` is `undefined`). -/
theorem mergeRanges_length_one_id :
    (∀ l : List MappingRange, l.length = 1 → mergeRanges l = Except.ok l) ∧
    mergeRanges ([] : List MappingRange) = Except.error destructureFailure := by
  constructor
  · intro l hl
    simp [mergeRanges, hl]
  · rfl

/-- Witness for C2's amended theorem at the singleton list `[{0, 4, "a"}]`. -/
theorem mergeRanges_length_one_id_witness :
    mergeRanges [MappingRange.mk 0 4 (some "a")] = Except.ok [MappingRange.mk 0 4 (some "a")] :=
  mergeRanges_length_one_id.1 [MappingRange.mk 0 4 (some "a")] rfl

/-- C6: merging is idempotent: applying `mergeRanges` to its own (successful)
output changes nothing, and the error on the empty list propagates, so
`mergeRanges ∘ mergeRanges = mergeRanges` as `Except`-computations. -/
theorem mergeRanges_idempotent (x : List MappingRange) :
    (mergeRanges x).bind mergeRanges = mergeRanges x := by
  by_cases hx1 : x.length = 1
  · simp [mergeRanges, hx1, Except.bind]
  · cases x with
    | nil => rfl
    | cons r rest =>
      have hout : mergeRanges (r :: rest) = Except.ok (mergeGo r r rest) := by
        unfold mergeRanges
        rw [if_neg hx1]
      rw [hout]
      show mergeRanges (mergeGo r r rest) = Except.ok (mergeGo r r rest)
      have hch := mergeGo_chain'_notMergeable rest r r rfl rfl
      obtain ⟨h, t, heq, -, -⟩ := mergeGo_head rest r r
      rw [heq] at hch ⊢
      unfold mergeRanges
      split
      · rfl
      · show Except.ok (mergeGo h h t) = Except.ok (h :: t)
        rw [mergeGo_fixed t h hch]

theorem jsIndexOfFrom_empty_nonneg (s : List Char) (p : Int) :
    0 ≤ jsIndexOfFrom s [] p := by
  simp only [jsIndexOfFrom]
  have hk : ((min (max p 0) (s.length : Int)).toNat : Nat) ≤ s.length := by omega
  have hsplit : s.length + 1 - (min (max p 0) (s.length : Int)).toNat =
      (s.length - (min (max p 0) (s.length : Int)).toNat) + 1 := by omega
  rw [hsplit, List.range_succ_eq_map, List.find?_cons_of_pos]
  · simp
  · simp [List.isPrefixOf]

theorem occLoop_empty_none (s : List Char) : ∀ (fuel count : Nat) (p : Int),
    0 ≤ p → occLoop [] s fuel count p = none := by
  intro fuel
  induction fuel with
  | zero => intro count p _; rfl
  | succ fuel ih =>
    intro count p hp
    unfold occLoop
    rw [if_neg (by omega)]
    exact ih (count + 1) _ (jsIndexOfFrom_empty_nonneg s _)

/-- C3 counterexample: `getOccurrencesCount("", "abc")` does not return 0 —
there is no empty-needle guard, and `indexOf("")` never returns `-1`, so the
loop exhausts any fuel bound (modelled result: `none`). -/
theorem getOccurrencesCount_empty_needle_none :
    getOccurrencesCount [] ['a', 'b', 'c'] = none := rfl

/-- C3 (amended): the empty needle is *not* a guarded case: for every haystack
`s` and every fuel bound, the repeated-indexOf loop of `getOccurrencesCount`
with needle `""` fails to terminate within the bound (the position never
advances and never becomes `-1`). -/
theorem getOccurrencesCount_empty_needle_diverges (s : List Char) (fuel : Nat) :
    getOccurrencesCountFuel [] s fuel = none :=
  occLoop_empty_none s fuel 0 _ (jsIndexOfFrom_empty_nonneg s 0)

theorem formatBytesWith_pos (logFn : Nat → Nat) (n d : Nat) (hn : n ≠ 0) :
    formatBytesWith logFn n d = toFixedTrimmed n (SIZE_BASE ^ logFn n) d ++ " " ++
      ((BYTE_SIZES.get? (logFn n)).getD "undefined") := by
  simp [formatBytesWith, hn]

theorem formatBytes_pos (n d : Nat) (hn : n ≠ 0) :
    formatBytes n d = toFixedTrimmed n (SIZE_BASE ^ Nat.log SIZE_BASE n) d ++ " " ++
      ((BYTE_SIZES.get? (Nat.log SIZE_BASE n)).getD "undefined") :=
  formatBytesWith_pos (Nat.log SIZE_BASE) n d hn

/-- C8: the four `formatBytes` scenarios with the default 2-decimal precision:
scaling by `1024 ^ exponent`, rounding to 2 decimals, and stripping trailing
zeros yields `"0 B"`, `"1 KB"`, `"1.5 KB"` and `"1.18 MB"`. -/
theorem formatBytes_scenarios :
    formatBytes 0 = "0 B" ∧ formatBytes 1024 = "1 KB" ∧
    formatBytes 1536 = "1.5 KB" ∧ formatBytes 1234567 = "1.18 MB" := by
  refine ⟨rfl, ?_, ?_, ?_⟩
  · have h : Nat.log 1024 1024 = 1 :=
      Nat.log_eq_of_pow_le_of_lt_pow (by norm_num) (by norm_num)
    rw [formatBytes_pos 1024 2 (by norm_num)]
    show toFixedTrimmed 1024 (1024 ^ Nat.log 1024 1024) 2 ++ " " ++
      ((BYTE_SIZES.get? (Nat.log 1024 1024)).getD "undefined") = "1 KB"
    rw [h]; rfl
  · have h : Nat.log 1024 1536 = 1 :=
      Nat.log_eq_of_pow_le_of_lt_pow (by norm_num) (by norm_num)
    rw [formatBytes_pos 1536 2 (by norm_num)]
    show toFixedTrimmed 1536 (1024 ^ Nat.log 1024 1536) 2 ++ " " ++
      ((BYTE_SIZES.get? (Nat.log 1024 1536)).getD "undefined") = "1.5 KB"
    rw [h]; rfl
  · have h : Nat.log 1024 1234567 = 2 :=
      Nat.log_eq_of_pow_le_of_lt_pow (by norm_num) (by norm_num)
    rw [formatBytes_pos 1234567 2 (by norm_num)]
    show toFixedTrimmed 1234567 (1024 ^ Nat.log 1024 1234567) 2 ++ " " ++
      ((BYTE_SIZES.get? (Nat.log 1024 1234567)).getD "undefined") = "1.18 MB"
    rw [h]; rfl

theorem toFixedTrimmed_self (N : Nat) (hN : 0 < N) : toFixedTrimmed N N 2 = "1" := by
  have hscaled : (2 * N * 10 ^ 2 + N) / (2 * N) = 100 := by
    have h1 : 2 * N * 10 ^ 2 + N = N + 2 * N * 100 := by ring
    rw [h1, Nat.add_mul_div_left N 100 (by omega), Nat.div_eq_of_lt (by omega)]
  simp only [toFixedTrimmed, hscaled]
  rfl

/-- C9 counterexample: at `n = 1024 ^ 9` the computed exponent is 9, past the
end of the 9-entry unit table, so the suffix is the JS string `"undefined"` —
the output ends with none of the defined unit suffixes (there is no clamp). -/
theorem formatBytes_pow9_undefined :
    formatBytes (1024 ^ 9) = "1 undefined" ∧
    (BYTE_SIZES.all fun u => ! u.data.isSuffixOf (formatBytes (1024 ^ 9)).data) = true := by
  have h1 : formatBytes (1024 ^ 9) = "1 undefined" := by
    rw [formatBytes_pos (1024 ^ 9) 2 (by positivity)]
    show toFixedTrimmed (1024 ^ 9) (SIZE_BASE ^ Nat.log SIZE_BASE (1024 ^ 9)) 2 ++ " " ++
      ((BYTE_SIZES.get? (Nat.log SIZE_BASE (1024 ^ 9))).getD "undefined") = "1 undefined"
    have hsb : SIZE_BASE = 1024 := rfl
    rw [hsb]
    have hlog : Nat.log 1024 (1024 ^ 9) = 9 := Nat.log_pow (by norm_num) 9
    rw [hlog, toFixedTrimmed_self (1024 ^ 9) (by positivity)]
    rfl
  refine ⟨h1, ?_⟩
  simp only [h1]
  decide

/-- C9 (amended): there is no clamp — the suffix is the direct table lookup
`BYTE_SIZES[exponent]` for whatever exponent the floating-point expression
produces: for every exponent function and every positive byte count, the
output ends in one of the nine defined unit suffixes when the computed
exponent is at most 8, and in the string `"undefined"` as soon as it reaches
9 — which the double computation does at `1024 ^ 9` (see the counterexample)
and, through `Math.log` rounding, already at some inputs slightly below
`1024 ^ 9`. -/
theorem formatBytes_suffix_iff (logFn : Nat → Nat) (n : Nat) (h0 : n ≠ 0) :
    (logFn n < 9 →
      ∃ u ∈ BYTE_SIZES, ∃ pre, formatBytesWith logFn n = pre ++ (" " ++ u)) ∧
    (9 ≤ logFn n →
      ∃ pre, formatBytesWith logFn n = pre ++ (" " ++ "undefined")) := by
  constructor
  · intro hlt
    have hlen : logFn n < BYTE_SIZES.length := by
      simpa [BYTE_SIZES] using hlt
    refine ⟨BYTE_SIZES.get ⟨logFn n, hlen⟩, List.get_mem _ _ _,
      toFixedTrimmed n (SIZE_BASE ^ logFn n) 2, ?_⟩
    rw [formatBytesWith_pos logFn n 2 h0, List.get?_eq_get hlen]
    simp [String.append_assoc]
  · intro hge
    refine ⟨toFixedTrimmed n (SIZE_BASE ^ logFn n) 2, ?_⟩
    have hnone : BYTE_SIZES.get? (logFn n) = none := by
      rw [List.get?_eq_none]
      simpa [BYTE_SIZES] using hge
    rw [formatBytesWith_pos logFn n 2 h0, hnone]
    simp [String.append_assoc]

/-- Witness for C9's amended theorem at `n = 1536` with the exponent function
constantly 1 (suffix `KB`, in the table) and constantly 9 (past the table,
suffix `"undefined"`). -/
theorem formatBytes_suffix_iff_witness :
    (∃ u ∈ BYTE_SIZES, ∃ pre, formatBytesWith (fun _ => 1) 1536 = pre ++ (" " ++ u)) ∧
    (∃ pre, formatBytesWith (fun _ => 9) 1536 = pre ++ (" " ++ "undefined")) :=
  ⟨(formatBytes_suffix_iff (fun _ => 1) 1536 (by decide)).1 (by decide),
   (formatBytes_suffix_iff (fun _ => 9) 1536 (by decide)).2 (by decide)⟩

theorem lexLt_irrefl : ∀ l : List Char, lexLt l l = false := by
  intro l
  induction l with
  | nil => rfl
  | cons a as ih => simp [lexLt, ih]

theorem lexLt_asymm : ∀ a b : List Char, lexLt a b = true → lexLt b a = false := by
  intro a
  induction a with
  | nil => intro b h; cases b <;> rfl
  | cons x xs ih =>
    intro b h
    cases b with
    | nil => exact absurd h (by simp [lexLt])
    | cons y ys =>
      simp only [lexLt] at h ⊢
      by_cases hxy : x < y
      · rw [if_neg (lt_asymm hxy), if_pos hxy]
      · by_cases hyx : y < x
        · rw [if_neg hxy, if_pos hyx] at h
          cases h
        · rw [if_neg hyx, if_neg hxy]
          rw [if_neg hxy, if_neg hyx] at h
          exact ih ys h

theorem lexLt_eq_of_not_lt : ∀ a b : List Char,
    lexLt a b = false → lexLt b a = false → a = b := by
  intro a
  induction a with
  | nil =>
    intro b h1 _
    cases b with
    | nil => rfl
    | cons y ys => exact absurd h1 (by simp [lexLt])
  | cons x xs ih =>
    intro b h1 h2
    cases b with
    | nil => exact absurd h2 (by simp [lexLt])
    | cons y ys =>
      simp only [lexLt] at h1 h2
      by_cases hxy : x < y
      · rw [if_pos hxy] at h1; cases h1
      · by_cases hyx : y < x
        · rw [if_pos hyx] at h2; cases h2
        · have hxeqy : x = y := le_antisymm (not_lt.mp hyx) (not_lt.mp hxy)
          rw [if_neg hxy, if_neg hyx] at h1
          rw [if_neg hyx, if_neg hxy] at h2
          rw [hxeqy, ih ys h1 h2]

theorem lexLt_trans : ∀ a b c : List Char,
    lexLt a b = true → lexLt b c = true → lexLt a c = true := by
  intro a
  induction a with
  | nil =>
    intro b c h1 h2
    cases c with
    | nil => cases b <;> simp [lexLt] at h2
    | cons z zs => rfl
  | cons x xs ih =>
    intro b c h1 h2
    cases b with
    | nil => exact absurd h1 (by simp [lexLt])
    | cons y ys =>
      cases c with
      | nil => exact absurd h2 (by simp [lexLt])
      | cons z zs =>
        simp only [lexLt] at h1 h2 ⊢
        by_cases hxy : x < y
        · by_cases hyz : y < z
          · rw [if_pos (lt_trans hxy hyz)]
          · by_cases hzy : z < y
            · rw [if_neg hyz, if_pos hzy] at h2
              cases h2
            · have : y = z := le_antisymm (not_lt.mp hzy) (not_lt.mp hyz)
              rw [if_pos (this ▸ hxy)]
        · by_cases hyx : y < x
          · rw [if_neg hxy, if_pos hyx] at h1; cases h1
          · have hxeqy : x = y := le_antisymm (not_lt.mp hyx) (not_lt.mp hxy)
            rw [if_neg hxy, if_neg hyx] at h1
            by_cases hyz : y < z
            · rw [if_pos (hxeqy ▸ hyz)]
            · by_cases hzy : z < y
              · rw [if_neg hyz, if_pos hzy] at h2; cases h2
              · have hyeqz : y = z := le_antisymm (not_lt.mp hzy) (not_lt.mp hyz)
                rw [if_neg hyz, if_neg hzy] at h2
                have hxz : ¬ x < z := hyeqz ▸ hxeqy ▸ lt_irrefl x
                have hzx : ¬ z < x := hyeqz ▸ hxeqy ▸ lt_irrefl x
                rw [if_neg hxz, if_neg hzx]
                exact ih ys zs h1 h2

theorem lexLe_trans (x y z : List Char)
    (h1 : lexLt y x = false) (h2 : lexLt z y = false) : lexLt z x = false := by
  by_cases hzx : lexLt z x = true
  · by_cases hyz : lexLt y z = true
    · rw [lexLt_trans y z x hyz hzx] at h1; cases h1
    · have hyz' : lexLt y z = false := Bool.eq_false_iff.mpr hyz
      have : y = z := lexLt_eq_of_not_lt y z hyz' h2
      rw [← this] at hzx
      rw [hzx] at h1
      cases h1
  · exact Bool.eq_false_iff.mpr hzx

theorem prefix_sandwich : ∀ (s p a b : List Char), lexLt p a = false → lexLt b p = false →
    s <+: a → s <+: b → s <+: p := by
  intro s
  induction s with
  | nil => intro p _ _ _ _ _ _; exact List.nil_prefix
  | cons c s ih =>
    intro p a b hpa hbp hsa hsb
    obtain ⟨a', rfl⟩ : ∃ a', a = c :: a' := by
      obtain ⟨ta, rfl⟩ := hsa
      exact ⟨s ++ ta, rfl⟩
    obtain ⟨b', rfl⟩ : ∃ b', b = c :: b' := by
      obtain ⟨tb, rfl⟩ := hsb
      exact ⟨s ++ tb, rfl⟩
    cases p with
    | nil => exact absurd hpa (by simp [lexLt])
    | cons d p' =>
      simp only [lexLt] at hpa hbp
      by_cases hdc : d < c
      · rw [if_pos hdc] at hpa; cases hpa
      · by_cases hcd : c < d
        · rw [if_pos hcd] at hbp; cases hbp
        · have hceqd : c = d := le_antisymm (not_lt.mp hdc) (not_lt.mp hcd)
          subst hceqd
          rw [if_neg hdc, if_neg hcd] at hpa hbp
          have hsa' : s <+: a' := (List.cons_prefix_cons.mp hsa).2
          have hsb' : s <+: b' := (List.cons_prefix_cons.mp hsb).2
          exact List.cons_prefix_cons.mpr ⟨rfl, ih p' a' b' hpa hbp hsa' hsb'⟩

theorem mem_insertSorted (x : String) : ∀ (l : List String) (y : String),
    y ∈ insertSorted x l ↔ y = x ∨ y ∈ l := by
  intro l
  induction l with
  | nil => intro y; simp [insertSorted]
  | cons z zs ih =>
    intro y
    simp only [insertSorted]
    split
    all_goals simp only [List.mem_cons, ih]
    all_goals tauto

theorem mem_jsSortStrings : ∀ (l : List String) (y : String),
    y ∈ jsSortStrings l ↔ y ∈ l := by
  intro l
  induction l with
  | nil => intro y; simp [jsSortStrings]
  | cons x xs ih =>
    intro y
    simp only [jsSortStrings, mem_insertSorted, ih, List.mem_cons]

theorem pairwise_insertSorted (x : String) : ∀ l : List String,
    l.Pairwise (fun u v => lexLt v.data u.data = false) →
    (insertSorted x l).Pairwise (fun u v => lexLt v.data u.data = false) := by
  intro l
  induction l with
  | nil => intro _; simp [insertSorted]
  | cons y ys ih =>
    intro hp
    obtain ⟨hy, hys⟩ := List.pairwise_cons.mp hp
    simp only [insertSorted]
    by_cases hc : lexLt y.data x.data = true
    · rw [if_pos hc, List.pairwise_cons]
      refine ⟨?_, ih hys⟩
      intro z hz
      rcases (mem_insertSorted x ys z).mp hz with rfl | hz
      · exact lexLt_asymm _ _ hc
      · exact hy z hz
    · rw [if_neg hc, List.pairwise_cons]
      have hxy : lexLt y.data x.data = false := Bool.eq_false_iff.mpr hc
      constructor
      · intro z hz
        rcases List.mem_cons.mp hz with rfl | hz
        · exact hxy
        · exact lexLe_trans x.data y.data z.data hxy (hy z hz)
      · exact hp

theorem pairwise_jsSortStrings : ∀ l : List String,
    (jsSortStrings l).Pairwise (fun u v => lexLt v.data u.data = false) := by
  intro l
  induction l with
  | nil => simp [jsSortStrings]
  | cons x xs ih => exact pairwise_insertSorted x _ ih

theorem head_le_of_pairwise (h : String) (t : List String) (p : String)
    (hp : (h :: t).Pairwise (fun u v => lexLt v.data u.data = false))
    (hmem : p ∈ h :: t) : lexLt p.data h.data = false := by
  rcases List.mem_cons.mp hmem with rfl | hmem
  · exact lexLt_irrefl _
  · exact (List.pairwise_cons.mp hp).1 p hmem

theorem getLastD_mem (y : String) (t : List String) (d : String) :
    (y :: t).getLastD d ∈ y :: t := by
  rw [List.getLastD_eq_getLast?, List.getLast?_eq_getLast_of_ne_nil (List.cons_ne_nil y t)]
  simp [List.getLast_mem]

theorem le_getLastD_of_pairwise : ∀ (t : List String) (y p d : String),
    (y :: t).Pairwise (fun u v => lexLt v.data u.data = false) → p ∈ y :: t →
    lexLt ((y :: t).getLastD d).data p.data = false := by
  intro t
  induction t with
  | nil =>
    intro y p d _ hmem
    have hpy : p = y := by simpa using hmem
    have hl : ([y] : List String).getLastD d = y := by
      rw [List.getLastD_eq_getLast?]; simp
    rw [hl, hpy]
    exact lexLt_irrefl _
  | cons z t ih =>
    intro y p d hp hmem
    have hlast : (y :: z :: t).getLastD d = (z :: t).getLastD d := by
      rw [List.getLastD_eq_getLast?, List.getLastD_eq_getLast?, List.getLast?_cons_cons]
    rw [hlast]
    rcases List.mem_cons.mp hmem with rfl | hmem
    · exact (List.pairwise_cons.mp hp).1 _ (getLastD_mem z t d)
    · exact ih z p d (List.pairwise_cons.mp hp).2 hmem

theorem splitKeepSep_ne_nil : ∀ l : List Char, splitKeepSep l ≠ [] := by
  intro l
  cases l with
  | nil => simp [splitKeepSep]
  | cons c rest =>
    simp only [splitKeepSep]
    split
    · simp
    · cases h : splitKeepSep rest with
      | nil => simp
      | cons s t => simp [h]

theorem splitKeepSep_flatten : ∀ l : List Char, (splitKeepSep l).flatten = l := by
  intro l
  induction l with
  | nil => rfl
  | cons c rest ih =>
    simp only [splitKeepSep]
    by_cases hc : c = '/'
    · rw [if_pos hc]
      subst hc
      simp only [List.flatten_cons, List.nil_append, List.singleton_append, ih]
    · rw [if_neg hc]
      cases h : splitKeepSep rest with
      | nil => exact absurd h (splitKeepSep_ne_nil rest)
      | cons s t =>
        have hst : (s :: t).flatten = rest := by rw [← h]; exact ih
        simp only [List.flatten_cons] at hst ⊢
        rw [List.cons_append, hst]

theorem commonRun_take_eq : ∀ xs ys : List (List Char),
    xs.take (commonRun xs ys) = ys.take (commonRun xs ys) := by
  intro xs
  induction xs with
  | nil => intro ys; cases ys <;> rfl
  | cons x xs ih =>
    intro ys
    cases ys with
    | nil => rfl
    | cons y ys =>
      simp only [commonRun]
      by_cases h : x = y
      · rw [if_pos h]
        subst h
        simp only [List.take_succ_cons, ih ys]
      · rw [if_neg h]
        rfl

theorem take_flatten_isPrefixOf (l : List (List Char)) (i : Nat) :
    (l.take i).flatten <+: l.flatten :=
  ⟨(l.drop i).flatten, by rw [← List.flatten_append, List.take_append_drop]⟩

theorem commonPath_shared (paths : List String) (p : String) (hp : p ∈ paths) :
    ( getCommonPathPrefix paths).data <+: p.data := by
  unfold getCommonPathPrefix
  split
  · exact List.nil_prefix
  · have hpA : p ∈ jsSortStrings (paths ++ []) :=
      (mem_jsSortStrings _ p).mpr (by simpa using hp)
    have hpair := pairwise_jsSortStrings (paths ++ [])
    cases hA : jsSortStrings (paths ++ []) with
    | nil => rw [hA] at hpA; cases hpA
    | cons h t =>
      rw [hA] at hpA hpair
      have hhp : lexLt p.data h.data = false := head_le_of_pairwise h t p hpair hpA
      have hpz : lexLt ((h :: t).getLastD "").data p.data = false :=
        le_getLastD_of_pairwise t h p "" hpair hpA
      show commonTokensOfSorted (h :: t) <+: p.data
      simp only [commonTokensOfSorted]
      have hhead : ((h :: t).headD "") = h := rfl
      rw [hhead]
      have hpre1 : (((splitKeepSep h.data).take
          (commonRun (splitKeepSep h.data) (splitKeepSep ((h :: t).getLastD "").data))).flatten)
          <+: h.data := by
        have := take_flatten_isPrefixOf (splitKeepSep h.data)
          (commonRun (splitKeepSep h.data) (splitKeepSep ((h :: t).getLastD "").data))
        rwa [splitKeepSep_flatten] at this
      have hpre2 : (((splitKeepSep h.data).take
          (commonRun (splitKeepSep h.data) (splitKeepSep ((h :: t).getLastD "").data))).flatten)
          <+: ((h :: t).getLastD "").data := by
        rw [commonRun_take_eq]
        have := take_flatten_isPrefixOf (splitKeepSep ((h :: t).getLastD "").data)
          (commonRun (splitKeepSep h.data) (splitKeepSep ((h :: t).getLastD "").data))
        rwa [splitKeepSep_flatten] at this
      exact prefix_sandwich _ p.data h.data ((h :: t).getLastD "").data hhp hpz hpre1 hpre2

/-- C4 counterexample: the two paths `"/x/y"` and `"/z/y"` do share a
non-empty prefix — the root separator — and the function returns `"/"`,
not the empty string claimed by the spec (the token arrays both start with
`["", "/"]`). -/
theorem commonPath_xy_zy_returns_slash :
    getCommonPathPrefix ["/x/y", "/z/y"] = "/" ∧ ("/" : String) ≠ "" := by
  exact ⟨rfl, by decide⟩

/-- C4 (amended): `getCommonPathPrefix ["/x/y", "/z/y"]` returns `"/"` (the
shared root separator), not `""`; the general clause of the claim stands: when
the result is non-empty it is itself a non-empty prefix shared by all supplied
paths, so paths sharing no non-empty common prefix yield the empty string. -/
theorem commonPath_empty_iff_no_shared :
    getCommonPathPrefix ["/x/y", "/z/y"] = "/" ∧
    ∀ paths : List String, getCommonPathPrefix paths ≠ "" →
      ∃ s : String, s ≠ "" ∧ ∀ p ∈ paths, s.data <+: p.data := by
  refine ⟨rfl, ?_⟩
  intro paths hne
  exact ⟨ getCommonPathPrefix paths, hne, fun p hp => commonPath_shared paths p hp⟩

/-- Witness for C4's amended theorem at `["/a/b/c", "/a/b/d"]`, whose result
`"/a/b/"` is non-empty. -/
theorem commonPath_empty_iff_no_shared_witness :
    ∃ s : String, s ≠ "" ∧ ∀ p ∈ (["/a/b/c", "/a/b/d"] : List String), s.data <+: p.data :=
  commonPath_empty_iff_no_shared.2 ["/a/b/c", "/a/b/d"] (by decide)

/-- C7 counterexample: on `["/a/b", "/a/b.", "/a/b/c"]` the function returns
`"/a/b"`, which is not aligned to a path-component boundary of the supplied
path `"/a/b."` (it splits the component `"b."`), while `"/a/"` is a longer-
than-empty aligned common prefix of all three paths; so the result is not the
longest separator-aligned common prefix of all supplied paths. -/
theorem commonPath_alignment_fails :
    getCommonPathPrefix ["/a/b", "/a/b.", "/a/b/c"] = "/a/b" ∧
    alignedIn ("/a/b" : String).data ("/a/b." : String).data = false ∧
    alignedSharedIn ("/a/" : String).data ["/a/b", "/a/b.", "/a/b/c"] = true := by
  exact ⟨rfl, by decide, by decide⟩

/-- C7 (amended): fewer than 2 paths give `""`; otherwise the result is the
joined common token run of the lexicographically least and greatest paths —
always a common string prefix of every supplied path, and equal to
`"/a/b/"` and `"/a/"` on the claim's two examples — but it is not in general
aligned to the path-separator boundaries of every supplied path when three or
more paths are given (see the counterexample). -/
theorem commonPath_contract :
    (∀ paths : List String, paths.length < 2 → getCommonPathPrefix paths = "") ∧
    getCommonPathPrefix ["/a/b/c", "/a/b/d"] = "/a/b/" ∧
    getCommonPathPrefix ["/a/bc", "/a/bd"] = "/a/" ∧
    ∀ paths : List String, ∀ p ∈ paths, ( getCommonPathPrefix paths).data <+: p.data := by
  refine ⟨?_, rfl, rfl, fun paths p hp => commonPath_shared paths p hp⟩
  intro paths hlen
  unfold getCommonPathPrefix
  rw [if_pos hlen]

/-- Witness for C7's amended theorem: the under-2 rule at `["/a"]` and the
shared-prefix clause at `["/a/b/c", "/a/b/d"]` with `p = "/a/b/c"`. -/
theorem commonPath_contract_witness :
    getCommonPathPrefix ["/a"] = "" ∧
    ( getCommonPathPrefix ["/a/b/c", "/a/b/d"]).data <+: ("/a/b/c" : String).data :=
  ⟨commonPath_contract.1 ["/a"] (by decide),
   commonPath_contract.2.2.2 ["/a/b/c", "/a/b/d"] "/a/b/c" (by decide)⟩

theorem set_append_singleton {α : Type} : ∀ (l : List α) (a v : α),
    (l ++ [a]).set l.length v = l ++ [v] := by
  intro l
  induction l with
  | nil => intro a v; rfl
  | cons x l ih =>
    intro a v
    show x :: ((l ++ [a]).set l.length v) = x :: (l ++ [v])
    rw [ih]

/-- C10: `getCommonPathPrefix` never mutates its `paths` argument: in the
heap-aware embedding the array at the caller's identity is unchanged by the
call (the lexicographic sort happens in place on the fresh `concat()` copy),
and the returned string agrees with the pure embedding. -/
theorem commonPath_no_mutation (st : ArrStore) (pid : Nat) (hpid : pid < st.arrs.length) :
    ( getCommonPathPrefixSt st pid).1.arrs.get? pid = st.arrs.get? pid ∧
    ( getCommonPathPrefixSt st pid).2 = getCommonPathPrefix (readArr st pid) := by
  by_cases hlt : (readArr st pid).length < 2
  · simp only [getCommonPathPrefixSt]
    rw [if_pos hlt]
    exact ⟨rfl, by unfold getCommonPathPrefix; rw [if_pos hlt]⟩
  · simp only [getCommonPathPrefixSt, writeArr]
    rw [if_neg hlt]
    have f1 : readArr ⟨st.arrs ++ [readArr st pid ++ []]⟩ st.arrs.length =
        readArr st pid ++ [] := by
      simp only [readArr, List.get?_concat_length, Option.getD_some]
    rw [f1]
    constructor
    · show ((st.arrs ++ [readArr st pid ++ []]).set st.arrs.length
        (jsSortStrings (readArr st pid ++ []))).get? pid = st.arrs.get? pid
      rw [set_append_singleton]
      exact List.get?_append hpid
    · show String.mk (commonTokensOfSorted (readArr
        ⟨(st.arrs ++ [readArr st pid ++ []]).set st.arrs.length
          (jsSortStrings (readArr st pid ++ []))⟩ st.arrs.length)) = _
      have f2 : readArr ⟨(st.arrs ++ [readArr st pid ++ []]).set st.arrs.length
          (jsSortStrings (readArr st pid ++ []))⟩ st.arrs.length =
          jsSortStrings (readArr st pid ++ []) := by
        simp only [readArr, set_append_singleton, List.get?_concat_length, Option.getD_some]
      rw [f2]
      unfold getCommonPathPrefix
      rw [if_neg hlt]

/-- Witness for C10 at a one-array store holding `["/b", "/a"]`. -/
theorem commonPath_no_mutation_witness :
    ( getCommonPathPrefixSt (ArrStore.mk [["/b", "/a"]]) 0).1.arrs.get? 0 =
      (ArrStore.mk [["/b", "/a"]]).arrs.get? 0 ∧
    ( getCommonPathPrefixSt (ArrStore.mk [["/b", "/a"]]) 0).2 =
      getCommonPathPrefix (readArr (ArrStore.mk [["/b", "/a"]]) 0) :=
  commonPath_no_mutation (ArrStore.mk [["/b", "/a"]]) 0 (by decide)

theorem splitLF_ne_nil : ∀ l : List Char, splitLF l ≠ [] := by
  intro l
  cases l with
  | nil => simp [splitLF]
  | cons c rest =>
    simp only [splitLF]
    split
    · simp
    · cases h : splitLF rest with
      | nil => simp
      | cons s t => simp [h]

theorem splitCRLF_ne_nil : ∀ l : List Char, splitCRLF l ≠ [] := by
  intro l
  match l with
  | [] => simp [splitCRLF]
  | [c] => simp [splitCRLF]
  | c :: c' :: rest =>
    simp only [splitCRLF]
    split
    · simp
    · cases h : splitCRLF (c' :: rest) with
      | nil => simp
      | cons s t => simp [h]

theorem joinLF_splitLF : ∀ s : List Char, joinLF (splitLF s) = s := by
  intro s
  induction s with
  | nil => rfl
  | cons c rest ih =>
    simp only [splitLF]
    by_cases hc : c = '\n'
    · rw [if_pos hc]
      subst hc
      cases h : splitLF rest with
      | nil => exact absurd h (splitLF_ne_nil rest)
      | cons s' t =>
        rw [h] at ih
        show joinLF ([] :: s' :: t) = '\n' :: rest
        show [] ++ '\n' :: joinLF (s' :: t) = '\n' :: rest
        rw [List.nil_append, ih]
    · rw [if_neg hc]
      cases h : splitLF rest with
      | nil => exact absurd h (splitLF_ne_nil rest)
      | cons s' t =>
        rw [h] at ih
        cases t with
        | nil =>
          show c :: s' = c :: rest
          have : joinLF [s'] = s' := rfl
          rw [this] at ih
          rw [ih]
        | cons u t' =>
          show (c :: s') ++ '\n' :: joinLF (u :: t') = c :: rest
          have : joinLF (s' :: u :: t') = s' ++ '\n' :: joinLF (u :: t') := rfl
          rw [this] at ih
          rw [List.cons_append, ih]

theorem joinCRLF_splitCRLF_bounded : ∀ (n : Nat) (s : List Char), s.length ≤ n →
    joinCRLF (splitCRLF s) = s := by
  intro n
  induction n with
  | zero =>
    intro s hs
    cases s with
    | nil => rfl
    | cons c rest => simp at hs
  | succ n ih =>
    intro s hs
    match s with
    | [] => rfl
    | [c] => rfl
    | c :: c' :: rest =>
      simp only [splitCRLF]
      by_cases hcc : c = '\r' ∧ c' = '\n'
      · rw [if_pos hcc]
        obtain ⟨rfl, rfl⟩ := hcc
        have hr := ih rest (by simp at hs ⊢; omega)
        cases h : splitCRLF rest with
        | nil => exact absurd h (splitCRLF_ne_nil rest)
        | cons s' t =>
          rw [h] at hr
          show [] ++ '\r' :: '\n' :: joinCRLF (s' :: t) = '\r' :: '\n' :: rest
          rw [List.nil_append, hr]
      · rw [if_neg hcc]
        have hr := ih (c' :: rest) (by simp at hs ⊢; omega)
        cases h : splitCRLF (c' :: rest) with
        | nil => exact absurd h (splitCRLF_ne_nil (c' :: rest))
        | cons s' t =>
          rw [h] at hr
          cases t with
          | nil =>
            show c :: s' = c :: c' :: rest
            have h2 : joinCRLF [s'] = s' := rfl
            rw [h2] at hr
            rw [hr]
          | cons u t' =>
            show (c :: s') ++ '\r' :: '\n' :: joinCRLF (u :: t') = c :: c' :: rest
            have h2 : joinCRLF (s' :: u :: t') = s' ++ '\r' :: '\n' :: joinCRLF (u :: t') := rfl
            rw [h2] at hr
            rw [List.cons_append, hr]

theorem joinCRLF_splitCRLF (s : List Char) : joinCRLF (splitCRLF s) = s :=
  joinCRLF_splitCRLF_bounded s.length s le_rfl

theorem mapWithLast_ne_nil {α β : Type} (f : α → Bool → β) :
    ∀ l : List α, l ≠ [] → mapWithLast f l ≠ [] := by
  intro l hl
  match l with
  | [x] => simp [mapWithLast]
  | x :: y :: t => simp [mapWithLast]

theorem mapWithLast_congr {α β : Type} (f g : α → Bool → β)
    (hfg : ∀ a b, f a b = g a b) : ∀ l : List α, mapWithLast f l = mapWithLast g l := by
  intro l
  induction l with
  | nil => rfl
  | cons x xs ih =>
    cases xs with
    | nil => simp [mapWithLast, hfg]
    | cons y t =>
      show f x false :: mapWithLast f (y :: t) = g x false :: mapWithLast g (y :: t)
      rw [hfg, ih]

theorem enumFrom_map_lastFlag {α β : Type} (f : α → Bool → β) :
    ∀ (l : List α) (n : Nat) (g : Nat × α → β),
    (∀ j a, j < l.length → g (n + j, a) = f a (decide (j = l.length - 1))) →
    (l.enumFrom n).map g = mapWithLast f l := by
  intro l
  induction l with
  | nil => intro n g _; rfl
  | cons x xs ih =>
    intro n g hg
    cases xs with
    | nil =>
      show [g (n, x)] = [f x true]
      have hx := hg 0 x (by simp)
      simpa using hx
    | cons y t =>
      show g (n, x) :: ((y :: t).enumFrom (n + 1)).map g = f x false :: mapWithLast f (y :: t)
      have hx := hg 0 x (by simp)
      have hxn : g (n, x) = f x false := by
        have e2 : (decide (0 = (x :: y :: t).length - 1)) = false := by
          simp [List.length_cons]
        rw [Nat.add_zero, e2] at hx
        exact hx
      rw [hxn]
      congr 1
      apply ih (n + 1) g
      intro j a hj
      have hja := hg (j + 1) a (by simpa using Nat.succ_lt_succ hj)
      have e1 : n + (j + 1) = n + 1 + j := by omega
      have e2 : (decide (j + 1 = (x :: y :: t).length - 1)) =
          (decide (j = (y :: t).length - 1)) := by
        simp only [List.length_cons]
        exact decide_eq_decide.mpr (by omega)
      rw [e1, e2] at hja
      exact hja

theorem inner_chunk_map (e : List Char) (flag : Prop) [Decidable flag] :
    (splitLF e).enum.map (fun jl =>
      SplitLine.mk jl.2
        (if jl.1 < (splitLF e).length - 1 ∨ flag then ['\n'] else ['\r', '\n'])) =
    entriesOfChunk (decide flag) e := by
  simp only [entriesOfChunk]
  show ((splitLF e).enumFrom 0).map _ = _
  apply enumFrom_map_lastFlag
  intro j a hj
  simp only [Nat.zero_add]
  have hlen1 : 1 ≤ (splitLF e).length := List.length_pos.mpr (splitLF_ne_nil e)
  congr 1
  by_cases hlast : j = (splitLF e).length - 1
  · by_cases hc : flag
    · rw [if_pos (Or.inr hc)]
      simp [hlast, hc]
    · have hno : ¬ (j < (splitLF e).length - 1 ∨ flag) := by
        rintro (h1 | h2)
        · omega
        · exact hc h2
      rw [if_neg hno]
      simp [hlast, hc]
  · rw [if_pos (Or.inl (by omega))]
    simp [hlast]

theorem splitLinesByEOL_eq_chunks (content : List Char) :
    splitLinesByEOL content =
      (mapWithLast (fun e isLast => entriesOfChunk isLast e) (splitCRLF content)).flatten := by
  simp only [splitLinesByEOL]
  congr 1
  show ((splitCRLF content).enumFrom 0).map _ = _
  apply enumFrom_map_lastFlag
  intro j e hj
  simp only [Nat.zero_add]
  exact inner_chunk_map e (j = (splitCRLF content).length - 1)

theorem entriesOfChunk_ne_nil (b : Bool) (e : List Char) : entriesOfChunk b e ≠ [] :=
  mapWithLast_ne_nil _ (splitLF e) (splitLF_ne_nil e)

theorem joinSplitLines_append (b : List SplitLine) (hb : b ≠ []) :
    ∀ a : List SplitLine, joinSplitLines (a ++ b) =
      (a.map (fun x => x.line ++ x.eol)).flatten ++ joinSplitLines b := by
  intro a
  induction a with
  | nil => simp
  | cons x a' ih =>
    cases hab : a' ++ b with
    | nil => exact absurd (List.append_eq_nil.mp hab).2 hb
    | cons u v =>
      show joinSplitLines (x :: (a' ++ b)) = _
      rw [hab]
      show x.line ++ x.eol ++ joinSplitLines (u :: v) = _
      rw [← hab, ih]
      simp [List.flatten_cons, List.append_assoc]

theorem joinSplitLines_mapWithLast_eol (eolLast : List Char) :
    ∀ lines : List (List Char), lines ≠ [] →
    joinSplitLines (mapWithLast (fun line isLast =>
      SplitLine.mk line (if isLast then eolLast else ['\n'])) lines) = joinLF lines := by
  intro lines
  induction lines with
  | nil => intro h; exact absurd rfl h
  | cons x xs ih =>
    intro _
    cases xs with
    | nil => rfl
    | cons y t =>
      have hstep : mapWithLast (fun line isLast =>
          SplitLine.mk line (if isLast then eolLast else ['\n'])) (x :: y :: t) =
          SplitLine.mk x ['\n'] :: mapWithLast (fun line isLast =>
            SplitLine.mk line (if isLast then eolLast else ['\n'])) (y :: t) := rfl
      rw [hstep]
      have hne := mapWithLast_ne_nil (fun line isLast =>
        SplitLine.mk line (if isLast then eolLast else ['\n'])) (y :: t) (by simp)
      cases hm : mapWithLast (fun line isLast =>
          SplitLine.mk line (if isLast then eolLast else ['\n'])) (y :: t) with
      | nil => exact absurd hm hne
      | cons u v =>
        show x ++ ['\n'] ++ joinSplitLines (u :: v) = joinLF (x :: y :: t)
        rw [← hm, ih (by simp)]
        show x ++ ['\n'] ++ joinLF (y :: t) = x ++ '\n' :: joinLF (y :: t)
        simp

theorem flat_mapWithLast_crlf :
    ∀ lines : List (List Char), lines ≠ [] →
    ((mapWithLast (fun line isLast =>
        SplitLine.mk line (if isLast then ['\r', '\n'] else ['\n'])) lines).map
      (fun x => x.line ++ x.eol)).flatten = joinLF lines ++ ['\r', '\n'] := by
  intro lines
  induction lines with
  | nil => intro h; exact absurd rfl h
  | cons x xs ih =>
    intro _
    cases xs with
    | nil => simp [mapWithLast, joinLF]
    | cons y t =>
      show ((SplitLine.mk x ['\n'] :: mapWithLast _ (y :: t)).map
        (fun x => x.line ++ x.eol)).flatten = joinLF (x :: y :: t) ++ ['\r', '\n']
      simp only [List.map_cons, List.flatten_cons]
      rw [ih (by simp)]
      show x ++ ['\n'] ++ (joinLF (y :: t) ++ ['\r', '\n']) =
        (x ++ '\n' :: joinLF (y :: t)) ++ ['\r', '\n']
      simp

theorem chunks_roundtrip : ∀ chunks : List (List Char), chunks ≠ [] →
    joinSplitLines ((mapWithLast (fun e isLast => entriesOfChunk isLast e) chunks).flatten) =
      joinCRLF chunks := by
  intro chunks
  induction chunks with
  | nil => intro h; exact absurd rfl h
  | cons e rest ih =>
    intro _
    cases rest with
    | nil =>
      show joinSplitLines (entriesOfChunk true e ++ []) = joinCRLF [e]
      rw [List.append_nil]
      have hcongr : entriesOfChunk true e = mapWithLast (fun line isLast =>
          SplitLine.mk line (if isLast then ['\n'] else ['\n'])) (splitLF e) := by
        simp only [entriesOfChunk]
        apply mapWithLast_congr
        intro a b
        cases b <;> rfl
      rw [hcongr, joinSplitLines_mapWithLast_eol ['\n'] (splitLF e) (splitLF_ne_nil e)]
      exact joinLF_splitLF e
    | cons y t =>
      show joinSplitLines (entriesOfChunk false e ++
        (mapWithLast (fun e isLast => entriesOfChunk isLast e) (y :: t)).flatten) =
        joinCRLF (e :: y :: t)
      have hbne : (mapWithLast (fun e isLast => entriesOfChunk isLast e) (y :: t)).flatten
          ≠ [] := by
        cases hm : mapWithLast (fun e isLast => entriesOfChunk isLast e) (y :: t) with
        | nil => exact absurd hm (mapWithLast_ne_nil _ (y :: t) (by simp))
        | cons u v =>
          have hu : u = entriesOfChunk (v.isEmpty) y ∨ u ≠ [] := by
            cases t with
            | nil =>
              have : u = entriesOfChunk true y := by
                have := hm
                simp only [mapWithLast] at this
                exact (List.cons.injEq _ _ _ _ ▸ this).1.symm
              exact Or.inr (this ▸ entriesOfChunk_ne_nil true y)
            | cons z t' =>
              have : u = entriesOfChunk false y := by
                have := hm
                simp only [mapWithLast] at this
                exact (List.cons.injEq _ _ _ _ ▸ this).1.symm
              exact Or.inr (this ▸ entriesOfChunk_ne_nil false y)
          rcases hu with h1 | h1
          · simp only [List.flatten_cons]
            intro hc
            exact absurd (List.append_eq_nil.mp hc).1 (h1 ▸ entriesOfChunk_ne_nil _ y)
          · simp only [List.flatten_cons]
            intro hc
            exact absurd (List.append_eq_nil.mp hc).1 h1
      rw [joinSplitLines_append _ hbne (entriesOfChunk false e)]
      have hleft : ((entriesOfChunk false e).map (fun x => x.line ++ x.eol)).flatten =
          e ++ ['\r', '\n'] := by
        have hcongr : entriesOfChunk false e = mapWithLast (fun line isLast =>
            SplitLine.mk line (if isLast then ['\r', '\n'] else ['\n'])) (splitLF e) := by
          simp only [entriesOfChunk]
          apply mapWithLast_congr
          intro a b
          cases b <;> rfl
        rw [hcongr, flat_mapWithLast_crlf (splitLF e) (splitLF_ne_nil e), joinLF_splitLF]
      rw [hleft, ih (by simp)]
      show e ++ ['\r', '\n'] ++ joinCRLF (y :: t) = e ++ '\r' :: '\n' :: joinCRLF (y :: t)
      simp

/-- C5: EOL round-trip — for every content string, concatenating the entries
of `splitLinesByEOL` in order, each `line` followed by its `eol` with the
final entry's `eol` omitted, reproduces the content exactly, for any mixture
of bare `\n` and `\r\n` terminators. -/
theorem splitLinesByEOL_roundtrip (content : List Char) :
    joinSplitLines (splitLinesByEOL content) = content := by
  rw [splitLinesByEOL_eq_chunks, chunks_roundtrip (splitCRLF content) (splitCRLF_ne_nil content)]
  exact joinCRLF_splitCRLF content

end Helpers
